import Mathlib

/-!
Shallow embedding of `supost_web_scraper.py` (derindutz/supost-web-scraper).

External collaborators (HTTP fetch + BeautifulSoup parsing, the filesystem,
SMTP) are modelled at their interface level: a fetched-and-parsed listing page
is its list of anchor hrefs (document order) plus its visible text; a
fetched-and-parsed detail page is its visible text plus the optional text of
the `h2#posttitle` element; the log file is an `Option String` (absent or its
full content); e-mail sending and printing are trace actions.  Python string
operations (`in`, `.lower()`, `"\n".join`, `splitlines(True)`) are embedded as
executable character-list functions below.  Exceptions that the source leaves
unhandled (the `AttributeError` from `find(...).text` on a missing heading)
are modelled as `Except.error`.
-/

namespace Supost

/-- Python `needle in hay` prefix worker: does `hay` start with `needle`? -/
def charsStart : List Char → List Char → Bool
  | _, [] => true
  | [], _ :: _ => false
  | c :: cs, d :: ds => c == d && charsStart cs ds

/-- Python `needle in hay` for strings: contiguous-substring containment. -/
def charsContain : List Char → List Char → Bool
  | [], needle => needle.isEmpty
  | c :: cs, needle => charsStart (c :: cs) needle || charsContain cs needle

/-- Python `needle in hay` on `String`. -/
def strContains (hay needle : String) : Bool :=
  charsContain hay.toList needle.toList

/-- Python `s.lower()` (ASCII case folding, as used by the scraper). -/
def strLower (s : String) : String :=
  String.mk (s.toList.map Char.toLower)

/-- Python `sep.join(l)`. -/
def pyJoin (sep : String) : List String → String
  | [] => ""
  | [x] => x
  | x :: y :: xs => x ++ sep ++ pyJoin sep (y :: xs)

/-- Worker for Python `s.splitlines(True)` restricted to `\n` line breaks
(the only break character the scraper ever writes); each returned chunk keeps
its trailing newline, so concatenating the chunks reconstructs the input. -/
def linesKeep : List Char → List (List Char)
  | [] => []
  | c :: cs =>
    if c = '\n' then ['\n'] :: linesKeep cs
    else
      match linesKeep cs with
      | [] => [[c]]
      | l :: ls => (c :: l) :: ls

/-- Python `s.splitlines(True)` (see `linesKeep`). -/
def splitlinesKeepends (s : String) : List String :=
  (linesKeep s.toList).map String.mk

/-- Python `file.writelines(queue)`: the content written is the
concatenation of the queued strings. -/
def writelinesContent (queue : List String) : String :=
  queue.foldr (fun a b => a ++ b) ""

/-- `OFFSET_INCREASE` from the source (line 40). -/
def OFFSET_INCREASE : Nat := 99

/-- A fetched and parsed detail page: its `get_text()` and the text of its
`h2` element with `id="posttitle"` (`none` when that element is absent). -/
structure DetailPage where
  text : String
  postTitle : Option String
deriving DecidableEq

/-- A fetched and parsed listing page: the `href` attributes of its `<a>`
elements in document order, and its `get_text()`. -/
structure ListingPage where
  hrefs : List String
  text : String
deriving DecidableEq

/-- The remote dataset: the listing page served for each offset (the listing
URL is determined by the offset — bare URL at offset 0, `?offset=o` otherwise)
and the detail page served for each href (the detail URL is
`"http://supost.com" ++ href`). -/
structure Site where
  listing : Nat → ListingPage
  detail : String → DetailPage

/-- `read_file_to_string` (source lines 107–118): the file's content, or the
empty string when the file does not exist. -/
def read_file_to_string (file : Option String) : String :=
  match file with
  | some c => c
  | none => ""

/-- The source's match-rendering expression (lines 156–157):
`post_title + ": supost.com" + link.get("href")`. -/
def renderMatch (title href : String) : String :=
  title ++ ": supost.com" ++ href

/-- The source's keyword test (line 153): `keyword in str(post_page.get_text()).lower()`.
Note that only the page text is lower-cased, not the keyword. -/
def keywordHit (pageText kw : String) : Bool :=
  strContains (strLower pageText) kw

/-- Outcome of processing keywords / candidate links of one listing page:
keep iterating with the accumulated matches, return early from
`scrape_supost` (an already-seen match), or raise (missing heading). -/
inductive StepOut where
  | cont (acc : List String)
  | halt (acc : List String)
  | err
deriving DecidableEq

/-- The inner `for keyword in keywords` loop of `scrape_supost`
(source lines 152–161) for one fetched detail page. -/
def procKeywords (prev : String) (page : DetailPage) (href : String) :
    List String → List String → StepOut
  | [], acc => .cont acc
  | kw :: rest, acc =>
    if keywordHit page.text kw then
      match page.postTitle with
      | none => .err
      | some t =>
        if strContains prev (renderMatch t href) then .halt acc
        else procKeywords prev page href rest (acc ++ [renderMatch t href])
    else procKeywords prev page href rest acc

/-- The `for link in link_page.find_all("a")` loop of `scrape_supost`
(source lines 147–161): hrefs containing `"post/index"` are candidate detail
pages, each fetched and run through `procKeywords`. -/
def procLinks (site : Site) (keywords : List String) (prev : String) :
    List String → List String → StepOut
  | [], acc => .cont acc
  | href :: rest, acc =>
    if strContains href "post/index" then
      match procKeywords prev (site.detail href) href keywords acc with
      | .err => .err
      | .halt a => .halt a
      | .cont a => procLinks site keywords prev rest a
    else procLinks site keywords prev rest acc

/-- The `while is_scraping` loop of `scrape_supost` (source lines 144–176).
The first component is the function's return value — `Except.error` models the
unhandled `AttributeError` aborting the run — and the second component counts
the listing pages fetched (an instrumentation ghost; the source performs one
`h.request(link)` per iteration). -/
def scrapeFrom (site : Site) (keywords : List String) (days : Nat)
    (oldestDateStr prev : String) :
    Nat → List String → Except Unit (List String × Nat) × Nat
  | offset, acc =>
    match procLinks site keywords prev (site.listing offset).hrefs acc with
    | .err => (.error (), 1)
    | .halt a => (.ok (a, offset), 1)
    | .cont a =>
      if strContains (site.listing offset).text oldestDateStr then
        (.ok (a, offset), 1)
      else if h : OFFSET_INCREASE * 2 * days < offset + OFFSET_INCREASE then
        (.ok (a, offset), 1)
      else
        let r := scrapeFrom site keywords days oldestDateStr prev
          (offset + OFFSET_INCREASE) a
        (r.1, r.2 + 1)
termination_by offset _ => OFFSET_INCREASE * 2 * days + OFFSET_INCREASE - offset
decreasing_by
  simp only [OFFSET_INCREASE] at *
  omega

/-- `scrape_supost` (source lines 121–176).  `oldestDateStr` is the
`strftime("%a, %b %d")` rendering of today minus `days` days; date arithmetic
and formatting happen outside the embedded core, so the rendered string is a
parameter fixed for the run. -/
def scrape_supost (site : Site) (keywords : List String) (days : Nat)
    (oldestDateStr prev : String) : Except Unit (List String × Nat) × Nat :=
  scrapeFrom site keywords days oldestDateStr prev 0 []

/-- A small concrete remote dataset for evaluating the embedded scraper on
closed inputs: every listing page shows the single candidate link
`"/post/index/1"` and the date text `"Sat, Oct 10"`, and every detail URL
serves the page `d`. -/
def onePostSite (d : DetailPage) : Site where
  listing := fun _ => { hrefs := ["/post/index/1"], text := "Sat, Oct 10" }
  detail := fun _ => d

/-- State of a `Prepender` between `__init__` and `__exit__`: the queued
strings (`write_queue`) and the on-disk file as left by `open(filename, "w")`. -/
structure PrependerState where
  write_queue : List String
  file : Option String
deriving DecidableEq

/-- `Prepender.__init__` (source lines 54–68): read the existing file into
`write_queue` via `splitlines(True)` (empty queue when the file is absent),
then open the file in mode `"w"` — which truncates it to empty on disk (and
creates it when absent). -/
def prependerOpen (file : Option String) : PrependerState :=
  { write_queue :=
      match file with
      | some c => splitlinesKeepends c
      | none => []
    file := some "" }

/-- `Prepender.write` (source lines 70–76): `write_queue.insert(0, string)`. -/
def prependerWrite (st : PrependerState) (s : String) : PrependerState :=
  { st with write_queue := s :: st.write_queue }

/-- `Prepender.__exit__` (source lines 86–90): if the queue is non-empty,
`writelines` it to the (truncated) file; then close.  An empty queue leaves
the truncated file, whose content is `""` — the same as writing the empty
concatenation. -/
def prependerExit (st : PrependerState) : Option String :=
  some (writelinesContent st.write_queue)

/-- A complete `with Prepender(path) as f: ...` block performing the given
`write` calls in order and exiting normally. -/
def prependerRun (file : Option String) (writes : List String) : Option String :=
  prependerExit (writes.foldl prependerWrite (prependerOpen file))

/-- Observable side effects of `output_new_matches`, in program order. -/
inductive Action where
  | historyWrite (content : String)
  | emailSend (message : String)
  | consolePrint (message : String)
deriving DecidableEq

/-- Python `str(list_of_strings)`, as used for the keyword list in the mail
header. -/
def pyStrList (l : List String) : String :=
  "[" ++ pyJoin ", " (l.map (fun s => "'" ++ s ++ "'")) ++ "]"

/-- `create_mail_message` (source lines 206–233). -/
def create_mail_message (new_matches keywords : List String) (offset : Nat)
    (previous_logfile_contents : String) : String :=
  "Keywords used: " ++ pyStrList keywords ++ "\n\n" ++
    "We checked through " ++ toString offset ++ " posts, and found " ++
    toString new_matches.length ++ " new matches:\n" ++
    (new_matches.foldl (fun acc m => acc ++ m ++ "\n") "") ++
    "\nHere are your old matches:\n" ++ previous_logfile_contents

/-- `output_new_matches` (source lines 179–203).  The file argument is the
content of `logfile_path`; the result is the file afterwards, the trace of
completed side effects in order, and `.error` when the history write raised
(`writeOk = false`), modelling §4.1's fallible `HistoryWrite`: the exception
escapes the `with` block after `__init__` has already truncated the file, and
nothing after the write runs. -/
def output_new_matches (new_matches keywords : List String)
    (file : Option String) (offset : Nat) (previous_logfile_contents : String)
    (writeOk : Bool) : Option String × List Action × Except Unit Unit :=
  if new_matches.isEmpty then
    (file, [.consolePrint "No new matches found."], .ok ())
  else
    let st := prependerOpen file
    if writeOk then
      let file2 := prependerExit
        (prependerWrite st (pyJoin "\n" new_matches ++ "\n"))
      let msg := create_mail_message new_matches keywords offset
        previous_logfile_contents
      (file2,
       [.historyWrite (read_file_to_string file2), .emailSend msg,
        .consolePrint "New matches found. Email sent."],
       .ok ())
    else
      (st.file, [], .error ())

/-! String-operation lemmas. -/

theorem charsStart_append (n rest : List Char) :
    charsStart (n ++ rest) n = true := by
  induction n with
  | nil =>
    cases rest <;> rfl
  | cons c cs ih =>
    simp [charsStart, ih]

theorem charsContain_of_start {hay n : List Char} (h : charsStart hay n = true) :
    charsContain hay n = true := by
  cases hay with
  | nil =>
    cases n with
    | nil => rfl
    | cons d ds => simp [charsStart] at h
  | cons c cs => simp [charsContain, h]

theorem charsContain_cons {cs n : List Char} (c : Char)
    (h : charsContain cs n = true) : charsContain (c :: cs) n = true := by
  simp [charsContain, h]

theorem charsContain_prepend (p : List Char) {h n : List Char}
    (hc : charsContain h n = true) : charsContain (p ++ h) n = true := by
  induction p with
  | nil => simpa using hc
  | cons c cs ih => exact charsContain_cons c ih

theorem charsContain_middle (a n b : List Char) :
    charsContain (a ++ (n ++ b)) n = true :=
  charsContain_prepend a (charsContain_of_start (charsStart_append n b))

theorem charsContain_nil {n : List Char} (h : charsContain [] n = true) :
    n = [] := by
  simpa [charsContain, List.isEmpty_iff] using h

theorem toList_append (s t : String) :
    (s ++ t).toList = s.toList ++ t.toList := by
  cases s
  cases t
  rfl

theorem toList_mk (l : List Char) : (String.mk l).toList = l := rfl

theorem mk_append (a b : List Char) :
    String.mk a ++ String.mk b = String.mk (a ++ b) := rfl

theorem strContains_prepend (p : String) {h n : String}
    (hc : strContains h n = true) : strContains (p ++ h) n = true := by
  unfold strContains at *
  rw [toList_append]
  exact charsContain_prepend _ hc

theorem strContains_empty {n : String} (h : strContains "" n = true) :
    n.toList = [] := by
  unfold strContains at h
  exact charsContain_nil h

theorem renderMatch_toList_ne_nil (t href : String) :
    (renderMatch t href).toList ≠ [] := by
  unfold renderMatch
  rw [toList_append, toList_append]
  simp [show (": supost.com" : String).toList ≠ [] from by decide]

theorem pyJoin_mem {x : String} {l : List String} (sep : String) (hx : x ∈ l) :
    ∃ a b, (pyJoin sep l).toList = a ++ (x.toList ++ b) := by
  induction l with
  | nil => cases hx
  | cons y ys ih =>
    rcases List.mem_cons.mp hx with rfl | hmem
    · cases ys with
      | nil =>
        exact ⟨[], [], by simp [pyJoin]⟩
      | cons z zs =>
        refine ⟨[], (sep ++ pyJoin sep (z :: zs)).toList, ?_⟩
        simp [pyJoin, toList_append]
    · cases ys with
      | nil => cases hmem
      | cons z zs =>
        obtain ⟨a, b, hab⟩ := ih hmem
        refine ⟨(y ++ sep).toList ++ a, b, ?_⟩
        simp only [pyJoin, toList_append, List.append_assoc]
        rw [hab]

theorem linesKeep_join (cs : List Char) :
    (linesKeep cs).foldr (fun a b => a ++ b) [] = cs := by
  induction cs with
  | nil => rfl
  | cons c cs ih =>
    by_cases hc : c = '\n'
    · subst hc
      simp [linesKeep, ih]
    · rw [linesKeep]
      simp only [if_neg hc]
      cases hlk : linesKeep cs with
      | nil =>
        rw [hlk] at ih
        simp at ih
        simp [ih]
      | cons l ls =>
        rw [hlk] at ih
        simpa using ih

theorem writelines_splitlines (s : String) :
    writelinesContent (splitlinesKeepends s) = s := by
  unfold writelinesContent splitlinesKeepends
  have key : ∀ ls : List (List Char),
      (ls.map String.mk).foldr (fun a b => a ++ b) "" =
        String.mk (ls.foldr (fun a b => a ++ b) []) := by
    intro ls
    induction ls with
    | nil => rfl
    | cons l ls ih => simp [ih, mk_append]
  rw [key, linesKeep_join]
  cases s
  rfl


/-! Case analysis of the inner keyword loop. -/

theorem procKeywords_no_hit {page : DetailPage} {kws : List String}
    (prev href : String)
    (hno : ∀ kw ∈ kws, keywordHit page.text kw = false) :
    ∀ acc, procKeywords prev page href kws acc = .cont acc := by
  induction kws with
  | nil => intro acc; rfl
  | cons kw rest ih =>
    intro acc
    have hkw : keywordHit page.text kw = false := hno kw (List.mem_cons_self kw rest)
    rw [procKeywords, if_neg (by simp [hkw])]
    exact ih (fun k hk => hno k (List.mem_cons_of_mem kw hk)) acc

theorem procKeywords_already_seen {page : DetailPage} {kws : List String}
    {t : String} (prev href : String)
    (hhit : ∃ kw ∈ kws, keywordHit page.text kw = true)
    (ht : page.postTitle = some t)
    (hseen : strContains prev (renderMatch t href) = true) :
    ∀ acc, procKeywords prev page href kws acc = .halt acc := by
  induction kws with
  | nil => simp at hhit
  | cons kw rest ih =>
    intro acc
    by_cases hkw : keywordHit page.text kw = true
    · rw [procKeywords, if_pos hkw, ht]
      simp [hseen]
    · have hrest : ∃ k ∈ rest, keywordHit page.text k = true := by
        rcases hhit with ⟨k, hk, hkt⟩
        rcases List.mem_cons.mp hk with rfl | hmem
        · exact absurd hkt hkw
        · exact ⟨k, hmem, hkt⟩
      rw [procKeywords, if_neg (by simpa using hkw)]
      exact ih hrest acc

theorem procKeywords_fresh {page : DetailPage} {t : String}
    (prev href : String) (kws : List String)
    (ht : page.postTitle = some t)
    (hnew : strContains prev (renderMatch t href) = false) :
    ∀ acc, procKeywords prev page href kws acc =
      .cont (acc ++ List.replicate (kws.countP (keywordHit page.text))
        (renderMatch t href)) := by
  induction kws with
  | nil => intro acc; simp [procKeywords, List.countP, List.countP.go]
  | cons kw rest ih =>
    intro acc
    by_cases hkw : keywordHit page.text kw = true
    · rw [procKeywords, if_pos hkw, ht]
      simp only [hnew, Bool.false_eq_true, if_false]
      rw [ih]
      rw [List.countP_cons_of_pos _ _ hkw, List.replicate_succ]
      simp
    · rw [procKeywords, if_neg (by simpa using hkw), ih]
      rw [List.countP_cons_of_neg]
      simpa using hkw

theorem procKeywords_missing_title {page : DetailPage} {kws : List String}
    (prev href : String)
    (hhit : ∃ kw ∈ kws, keywordHit page.text kw = true)
    (ht : page.postTitle = none) :
    ∀ acc, procKeywords prev page href kws acc = .err := by
  induction kws with
  | nil => simp at hhit
  | cons kw rest ih =>
    intro acc
    by_cases hkw : keywordHit page.text kw = true
    · rw [procKeywords, if_pos hkw, ht]
    · have hrest : ∃ k ∈ rest, keywordHit page.text k = true := by
        rcases hhit with ⟨k, hk, hkt⟩
        rcases List.mem_cons.mp hk with rfl | hmem
        · exact absurd hkt hkw
        · exact ⟨k, hmem, hkt⟩
      rw [procKeywords, if_neg (by simpa using hkw)]
      exact ih hrest acc

theorem procKeywords_empty_prev_no_halt {page : DetailPage}
    (href : String) (kws : List String) :
    ∀ acc x, procKeywords "" page href kws acc ≠ .halt x := by
  induction kws with
  | nil => intro acc x h; simp [procKeywords] at h
  | cons kw rest ih =>
    intro acc x h
    rw [procKeywords] at h
    by_cases hkw : keywordHit page.text kw = true
    · rw [if_pos hkw] at h
      cases ht : page.postTitle with
      | none => rw [ht] at h; cases h
      | some t =>
        rw [ht] at h
        have hz : strContains "" (renderMatch t href) = false := by
          cases hs : strContains "" (renderMatch t href) with
          | false => rfl
          | true => exact absurd (strContains_empty hs) (renderMatch_toList_ne_nil t href)
        simp only [hz, Bool.false_eq_true, if_false] at h
        exact ih _ x h
    · rw [if_neg (by simpa using hkw)] at h
      exact ih _ x h

/-! Lemmas about the candidate-link loop and the crawl loop. -/

theorem procLinks_append (site : Site) (keywords : List String)
    (prev : String) (l1 l2 : List String) :
    ∀ acc, procLinks site keywords prev (l1 ++ l2) acc =
      match procLinks site keywords prev l1 acc with
      | .cont a => procLinks site keywords prev l2 a
      | .halt a => .halt a
      | .err => .err := by
  induction l1 with
  | nil => intro acc; rfl
  | cons href rest ih =>
    intro acc
    by_cases hc : strContains href "post/index" = true
    · rw [List.cons_append, procLinks, if_pos hc, procLinks, if_pos hc]
      cases procKeywords prev (site.detail href) href keywords acc with
      | cont a => exact ih a
      | halt a => rfl
      | err => rfl
    · rw [List.cons_append, procLinks, if_neg (by simpa using hc),
        procLinks, if_neg (by simpa using hc)]
      exact ih acc

theorem procLinks_empty_prev_no_halt (site : Site) (keywords : List String)
    (links : List String) :
    ∀ acc x, procLinks site keywords "" links acc ≠ .halt x := by
  induction links with
  | nil => intro acc x h; cases h
  | cons href rest ih =>
    intro acc x h
    rw [procLinks] at h
    by_cases hc : strContains href "post/index" = true
    · rw [if_pos hc] at h
      cases hp : procKeywords "" (site.detail href) href keywords acc with
      | cont a => rw [hp] at h; exact ih a x h
      | halt a => exact procKeywords_empty_prev_no_halt href keywords acc a hp
      | err => rw [hp] at h; cases h
    · rw [if_neg (by simpa using hc)] at h
      exact ih acc x h

theorem scrapeFrom_unfold (site : Site) (keywords : List String) (days : Nat)
    (oldestDateStr prev : String) (offset : Nat) (acc : List String) :
    scrapeFrom site keywords days oldestDateStr prev offset acc =
      match procLinks site keywords prev (site.listing offset).hrefs acc with
      | .err => (.error (), 1)
      | .halt a => (.ok (a, offset), 1)
      | .cont a =>
        if strContains (site.listing offset).text oldestDateStr then
          (.ok (a, offset), 1)
        else if OFFSET_INCREASE * 2 * days < offset + OFFSET_INCREASE then
          (.ok (a, offset), 1)
        else
          let r := scrapeFrom site keywords days oldestDateStr prev
            (offset + OFFSET_INCREASE) a
          (r.1, r.2 + 1) := by
  rw [scrapeFrom]
  cases procLinks site keywords prev (site.listing offset).hrefs acc with
  | err => rfl
  | halt a => rfl
  | cont a =>
    by_cases hd : strContains (site.listing offset).text oldestDateStr = true
    · simp [hd]
    · simp only [hd, Bool.false_eq_true, if_false]
      by_cases hb : OFFSET_INCREASE * 2 * days < offset + OFFSET_INCREASE
      · rw [dif_pos hb, if_pos hb]
      · rw [dif_neg hb, if_neg hb]

theorem scrapeFrom_of_halt {site : Site} {keywords : List String} {days : Nat}
    {oldestDateStr prev : String} {offset : Nat} {acc a : List String}
    (hp : procLinks site keywords prev (site.listing offset).hrefs acc = .halt a) :
    scrapeFrom site keywords days oldestDateStr prev offset acc =
      (.ok (a, offset), 1) := by
  rw [scrapeFrom_unfold, hp]

theorem scrapeFrom_of_err {site : Site} {keywords : List String} {days : Nat}
    {oldestDateStr prev : String} {offset : Nat} {acc : List String}
    (hp : procLinks site keywords prev (site.listing offset).hrefs acc = .err) :
    scrapeFrom site keywords days oldestDateStr prev offset acc =
      (.error (), 1) := by
  rw [scrapeFrom_unfold, hp]

theorem scrapeFrom_stop_date {site : Site} {keywords : List String} {days : Nat}
    {oldestDateStr prev : String} {offset : Nat} {acc a : List String}
    (hp : procLinks site keywords prev (site.listing offset).hrefs acc = .cont a)
    (hd : strContains (site.listing offset).text oldestDateStr = true) :
    scrapeFrom site keywords days oldestDateStr prev offset acc =
      (.ok (a, offset), 1) := by
  rw [scrapeFrom_unfold, hp]
  simp [hd]

theorem scrapeFrom_stop_bound {site : Site} {keywords : List String} {days : Nat}
    {oldestDateStr prev : String} {offset : Nat} {acc a : List String}
    (hp : procLinks site keywords prev (site.listing offset).hrefs acc = .cont a)
    (hd : strContains (site.listing offset).text oldestDateStr = false)
    (hb : OFFSET_INCREASE * 2 * days < offset + OFFSET_INCREASE) :
    scrapeFrom site keywords days oldestDateStr prev offset acc =
      (.ok (a, offset), 1) := by
  rw [scrapeFrom_unfold, hp]
  simp [hd, hb]

theorem scrapeFrom_recurse {site : Site} {keywords : List String} {days : Nat}
    {oldestDateStr prev : String} {offset : Nat} {acc a : List String}
    (hp : procLinks site keywords prev (site.listing offset).hrefs acc = .cont a)
    (hd : strContains (site.listing offset).text oldestDateStr = false)
    (hb : ¬ OFFSET_INCREASE * 2 * days < offset + OFFSET_INCREASE) :
    scrapeFrom site keywords days oldestDateStr prev offset acc =
      ((scrapeFrom site keywords days oldestDateStr prev
          (offset + OFFSET_INCREASE) a).1,
        (scrapeFrom site keywords days oldestDateStr prev
          (offset + OFFSET_INCREASE) a).2 + 1) := by
  rw [scrapeFrom_unfold, hp]
  simp [hd, hb]

theorem scrapeFrom_pages_le (site : Site) (keywords : List String) (days : Nat)
    (oldestDateStr prev : String) :
    ∀ k offset acc, OFFSET_INCREASE * 2 * days ≤ offset + OFFSET_INCREASE * k →
      (scrapeFrom site keywords days oldestDateStr prev offset acc).2 ≤ k + 1 := by
  intro k
  induction k with
  | zero =>
    intro offset acc hk
    have hb : OFFSET_INCREASE * 2 * days < offset + OFFSET_INCREASE := by
      simp only [OFFSET_INCREASE] at hk ⊢
      omega
    rw [scrapeFrom_unfold]
    cases procLinks site keywords prev (site.listing offset).hrefs acc with
    | err => simp
    | halt a => simp
    | cont a =>
      by_cases hd : strContains (site.listing offset).text oldestDateStr = true
      · simp [hd]
      · simp [hd, hb]
  | succ k ih =>
    intro offset acc hk
    rw [scrapeFrom_unfold]
    cases procLinks site keywords prev (site.listing offset).hrefs acc with
    | err => simp
    | halt a => simp
    | cont a =>
      by_cases hd : strContains (site.listing offset).text oldestDateStr = true
      · simp [hd]
      · by_cases hb : OFFSET_INCREASE * 2 * days < offset + OFFSET_INCREASE
        · simp [hd, hb]
        · have hnext : OFFSET_INCREASE * 2 * days ≤
              (offset + OFFSET_INCREASE) + OFFSET_INCREASE * k := by
            simp only [OFFSET_INCREASE] at hk ⊢
            omega
          have := ih (offset + OFFSET_INCREASE) a hnext
          simp [hd, hb]
          omega

theorem scrapeFrom_offset_le (site : Site) (keywords : List String) (days : Nat)
    (oldestDateStr prev : String) :
    ∀ k offset acc ms o,
      OFFSET_INCREASE * 2 * days ≤ offset + OFFSET_INCREASE * k →
      offset ≤ OFFSET_INCREASE * 2 * days →
      (scrapeFrom site keywords days oldestDateStr prev offset acc).1 =
        .ok (ms, o) →
      o ≤ OFFSET_INCREASE * 2 * days := by
  intro k
  induction k with
  | zero =>
    intro offset acc ms o hk hoff hrun
    have hb : OFFSET_INCREASE * 2 * days < offset + OFFSET_INCREASE := by
      simp only [OFFSET_INCREASE] at hk ⊢
      omega
    rw [scrapeFrom_unfold] at hrun
    cases hpl : procLinks site keywords prev (site.listing offset).hrefs acc with
    | err => rw [hpl] at hrun; cases hrun
    | halt a =>
      rw [hpl] at hrun
      simp at hrun
      omega
    | cont a =>
      rw [hpl] at hrun
      by_cases hd : strContains (site.listing offset).text oldestDateStr = true
      · simp [hd] at hrun
        omega
      · simp [hd, hb] at hrun
        omega
  | succ k ih =>
    intro offset acc ms o hk hoff hrun
    rw [scrapeFrom_unfold] at hrun
    cases hpl : procLinks site keywords prev (site.listing offset).hrefs acc with
    | err => rw [hpl] at hrun; cases hrun
    | halt a =>
      rw [hpl] at hrun
      simp at hrun
      omega
    | cont a =>
      rw [hpl] at hrun
      by_cases hd : strContains (site.listing offset).text oldestDateStr = true
      · simp [hd] at hrun
        omega
      · by_cases hb : OFFSET_INCREASE * 2 * days < offset + OFFSET_INCREASE
        · simp [hd, hb] at hrun
          omega
        · simp [hd, hb] at hrun
          have hoff2 : offset + OFFSET_INCREASE ≤ OFFSET_INCREASE * 2 * days := by
            simp only [OFFSET_INCREASE] at hb ⊢
            omega
          have hk2 : OFFSET_INCREASE * 2 * days ≤
              (offset + OFFSET_INCREASE) + OFFSET_INCREASE * k := by
            simp only [OFFSET_INCREASE] at hk ⊢
            omega
          exact ih (offset + OFFSET_INCREASE) a ms o hk2 hoff2 hrun

theorem scrapeFrom_empty_prev_stop (site : Site) (keywords : List String)
    (days : Nat) (oldestDateStr : String) :
    ∀ k offset acc ms o,
      OFFSET_INCREASE * 2 * days ≤ offset + OFFSET_INCREASE * k →
      (scrapeFrom site keywords days oldestDateStr "" offset acc).1 =
        .ok (ms, o) →
      strContains (site.listing o).text oldestDateStr = true ∨
        OFFSET_INCREASE * 2 * days < o + OFFSET_INCREASE := by
  intro k
  induction k with
  | zero =>
    intro offset acc ms o hk hrun
    have hb : OFFSET_INCREASE * 2 * days < offset + OFFSET_INCREASE := by
      simp only [OFFSET_INCREASE] at hk ⊢
      omega
    rw [scrapeFrom_unfold] at hrun
    cases hpl : procLinks site keywords "" (site.listing offset).hrefs acc with
    | err => rw [hpl] at hrun; cases hrun
    | halt a => exact absurd hpl (procLinks_empty_prev_no_halt site keywords _ acc a)
    | cont a =>
      rw [hpl] at hrun
      by_cases hd : strContains (site.listing offset).text oldestDateStr = true
      · simp [hd] at hrun
        obtain ⟨h1, h2⟩ := hrun
        subst h2
        exact Or.inl hd
      · simp [hd, hb] at hrun
        obtain ⟨h1, h2⟩ := hrun
        subst h2
        exact Or.inr hb
  | succ k ih =>
    intro offset acc ms o hk hrun
    rw [scrapeFrom_unfold] at hrun
    cases hpl : procLinks site keywords "" (site.listing offset).hrefs acc with
    | err => rw [hpl] at hrun; cases hrun
    | halt a => exact absurd hpl (procLinks_empty_prev_no_halt site keywords _ acc a)
    | cont a =>
      rw [hpl] at hrun
      by_cases hd : strContains (site.listing offset).text oldestDateStr = true
      · simp [hd] at hrun
        obtain ⟨h1, h2⟩ := hrun
        subst h2
        exact Or.inl hd
      · by_cases hb : OFFSET_INCREASE * 2 * days < offset + OFFSET_INCREASE
        · simp [hd, hb] at hrun
          obtain ⟨h1, h2⟩ := hrun
          subst h2
          exact Or.inr hb
        · simp [hd, hb] at hrun
          have hk2 : OFFSET_INCREASE * 2 * days ≤
              (offset + OFFSET_INCREASE) + OFFSET_INCREASE * k := by
            simp only [OFFSET_INCREASE] at hk ⊢
            omega
          exact ih (offset + OFFSET_INCREASE) a ms o hk2 hrun

theorem procLinks_sim (site : Site) (keywords : List String)
    {hist hist2 : String}
    (M : ∀ n, strContains hist n = true → strContains hist2 n = true) :
    ∀ links acc,
      (∀ a, procLinks site keywords hist links acc = .halt a →
        ∃ tail, a = acc ++ tail ∧
          ((∀ x ∈ tail, strContains hist2 x = true) →
            procLinks site keywords hist2 links [] = .halt [])) ∧
      (∀ a, procLinks site keywords hist links acc = .cont a →
        ∃ tail, a = acc ++ tail ∧
          ((tail = [] ∧ procLinks site keywords hist2 links [] = .cont []) ∨
            ((∀ x ∈ tail, strContains hist2 x = true) →
              procLinks site keywords hist2 links [] = .halt []))) := by
  intro links
  induction links with
  | nil =>
    intro acc
    constructor
    · intro a ha
      rw [procLinks] at ha
      cases ha
    · intro a ha
      rw [procLinks] at ha
      injection ha with h
      subst h
      exact ⟨[], by simp, Or.inl ⟨rfl, by rw [procLinks]⟩⟩
  | cons href rest ih =>
    intro acc
    by_cases hc : strContains href "post/index" = true
    case neg =>
      have e1 : ∀ (p : String) (a0 : List String),
          procLinks site keywords p (href :: rest) a0 =
            procLinks site keywords p rest a0 := by
        intro p a0
        rw [procLinks, if_neg (by simpa using hc)]
      constructor
      · intro a ha
        rw [e1] at ha
        obtain ⟨tail, ht, hcon⟩ := (ih acc).1 a ha
        exact ⟨tail, ht, fun hall => by rw [e1]; exact hcon hall⟩
      · intro a ha
        rw [e1] at ha
        obtain ⟨tail, ht, hcon⟩ := (ih acc).2 a ha
        refine ⟨tail, ht, ?_⟩
        rcases hcon with ⟨h0, h2⟩ | h2
        · exact Or.inl ⟨h0, by rw [e1]; exact h2⟩
        · exact Or.inr fun hall => by rw [e1]; exact h2 hall
    case pos =>
      by_cases hhit :
        ∃ kw ∈ keywords, keywordHit (site.detail href).text kw = true
      case neg =>
        have hno : ∀ kw ∈ keywords,
            keywordHit (site.detail href).text kw = false := by
          intro kw hk
          by_contra hne
          exact hhit ⟨kw, hk, by simpa using hne⟩
        have e1 : ∀ (p : String) (a0 : List String),
            procLinks site keywords p (href :: rest) a0 =
              procLinks site keywords p rest a0 := by
          intro p a0
          rw [procLinks, if_pos hc, procKeywords_no_hit p href hno]
        constructor
        · intro a ha
          rw [e1] at ha
          obtain ⟨tail, ht, hcon⟩ := (ih acc).1 a ha
          exact ⟨tail, ht, fun hall => by rw [e1]; exact hcon hall⟩
        · intro a ha
          rw [e1] at ha
          obtain ⟨tail, ht, hcon⟩ := (ih acc).2 a ha
          refine ⟨tail, ht, ?_⟩
          rcases hcon with ⟨h0, h2⟩ | h2
          · exact Or.inl ⟨h0, by rw [e1]; exact h2⟩
          · exact Or.inr fun hall => by rw [e1]; exact h2 hall
      case pos =>
        cases htitle : (site.detail href).postTitle with
        | none =>
          have e1 : ∀ a0 : List String,
              procLinks site keywords hist (href :: rest) a0 = .err := by
            intro a0
            rw [procLinks, if_pos hc,
              procKeywords_missing_title hist href hhit htitle]
          constructor
          · intro a ha
            rw [e1] at ha
            cases ha
          · intro a ha
            rw [e1] at ha
            cases ha
        | some t =>
          by_cases hseen : strContains hist (renderMatch t href) = true
          case pos =>
            have e1 : ∀ a0 : List String,
                procLinks site keywords hist (href :: rest) a0 = .halt a0 := by
              intro a0
              rw [procLinks, if_pos hc,
                procKeywords_already_seen hist href hhit htitle hseen]
            have e2 : procLinks site keywords hist2 (href :: rest) [] =
                .halt [] := by
              rw [procLinks, if_pos hc,
                procKeywords_already_seen hist2 href hhit htitle
                  (M _ hseen)]
            constructor
            · intro a ha
              rw [e1] at ha
              injection ha with h
              subst h
              exact ⟨[], by simp, fun _ => e2⟩
            · intro a ha
              rw [e1] at ha
              cases ha
          case neg =>
            have hkpos :
                0 < keywords.countP (keywordHit (site.detail href).text) := by
              rcases hhit with ⟨kw, hk, hkt⟩
              exact List.countP_pos_iff.mpr ⟨kw, hk, hkt⟩
            have e1 : ∀ a0 : List String,
                procLinks site keywords hist (href :: rest) a0 =
                  procLinks site keywords hist rest
                    (a0 ++ List.replicate
                      (keywords.countP (keywordHit (site.detail href).text))
                      (renderMatch t href)) := by
              intro a0
              rw [procLinks, if_pos hc,
                procKeywords_fresh hist href keywords htitle
                  (by simpa using hseen)]
            have hmem : renderMatch t href ∈
                List.replicate
                  (keywords.countP (keywordHit (site.detail href).text))
                  (renderMatch t href) :=
              List.mem_replicate.mpr ⟨hkpos.ne', rfl⟩
            have e2 : strContains hist2 (renderMatch t href) = true →
                procLinks site keywords hist2 (href :: rest) [] = .halt [] := by
              intro h2
              rw [procLinks, if_pos hc,
                procKeywords_already_seen hist2 href hhit htitle h2]
            constructor
            · intro a ha
              rw [e1] at ha
              obtain ⟨tail1, ht1, _⟩ :=
                (ih (acc ++ List.replicate
                  (keywords.countP (keywordHit (site.detail href).text))
                  (renderMatch t href))).1 a ha
              refine ⟨List.replicate
                  (keywords.countP (keywordHit (site.detail href).text))
                  (renderMatch t href) ++ tail1, by simp [ht1], ?_⟩
              intro hall
              exact e2 (hall _ (List.mem_append_left tail1 hmem))
            · intro a ha
              rw [e1] at ha
              obtain ⟨tail1, ht1, _⟩ :=
                (ih (acc ++ List.replicate
                  (keywords.countP (keywordHit (site.detail href).text))
                  (renderMatch t href))).2 a ha
              refine ⟨List.replicate
                  (keywords.countP (keywordHit (site.detail href).text))
                  (renderMatch t href) ++ tail1, by simp [ht1], Or.inr ?_⟩
              intro hall
              exact e2 (hall _ (List.mem_append_left tail1 hmem))

theorem scrapeFrom_sim (site : Site) (keywords : List String) (days : Nat)
    (oldestDateStr : String) {hist hist2 : String}
    (M : ∀ n, strContains hist n = true → strContains hist2 n = true) :
    ∀ k offset acc ms o,
      OFFSET_INCREASE * 2 * days ≤ offset + OFFSET_INCREASE * k →
      (scrapeFrom site keywords days oldestDateStr hist offset acc).1 =
        .ok (ms, o) →
      ∃ tail, ms = acc ++ tail ∧
        ((∀ x ∈ tail, strContains hist2 x = true) →
          ∃ o2, (scrapeFrom site keywords days oldestDateStr hist2
            offset []).1 = .ok ([], o2)) := by
  intro k
  induction k with
  | zero =>
    intro offset acc ms o hk hrun
    have hb : OFFSET_INCREASE * 2 * days < offset + OFFSET_INCREASE := by
      simp only [OFFSET_INCREASE] at hk ⊢
      omega
    rw [scrapeFrom_unfold] at hrun
    cases hpl : procLinks site keywords hist (site.listing offset).hrefs acc with
    | err => rw [hpl] at hrun; cases hrun
    | halt a =>
      rw [hpl] at hrun
      simp at hrun
      obtain ⟨h1, h2⟩ := hrun
      subst h1
      obtain ⟨tail, ht, hcon⟩ :=
        (procLinks_sim site keywords M (site.listing offset).hrefs acc).1 a hpl
      refine ⟨tail, ht, fun hall => ⟨offset, ?_⟩⟩
      rw [scrapeFrom_of_halt (hcon hall)]
    | cont a =>
      rw [hpl] at hrun
      obtain ⟨tail, ht, hcon⟩ :=
        (procLinks_sim site keywords M (site.listing offset).hrefs acc).2 a hpl
      by_cases hd : strContains (site.listing offset).text oldestDateStr = true
      · simp [hd] at hrun
        obtain ⟨h1, h2⟩ := hrun
        subst h1
        refine ⟨tail, ht, fun hall => ⟨offset, ?_⟩⟩
        rcases hcon with ⟨h0, hrun2⟩ | hrun2
        · rw [scrapeFrom_stop_date hrun2 hd]
        · rw [scrapeFrom_of_halt (hrun2 hall)]
      · simp [hd, hb] at hrun
        obtain ⟨h1, h2⟩ := hrun
        subst h1
        refine ⟨tail, ht, fun hall => ⟨offset, ?_⟩⟩
        rcases hcon with ⟨h0, hrun2⟩ | hrun2
        · rw [scrapeFrom_stop_bound hrun2 (by simpa using hd) hb]
        · rw [scrapeFrom_of_halt (hrun2 hall)]
  | succ k ih =>
    intro offset acc ms o hk hrun
    rw [scrapeFrom_unfold] at hrun
    cases hpl : procLinks site keywords hist (site.listing offset).hrefs acc with
    | err => rw [hpl] at hrun; cases hrun
    | halt a =>
      rw [hpl] at hrun
      simp at hrun
      obtain ⟨h1, h2⟩ := hrun
      subst h1
      obtain ⟨tail, ht, hcon⟩ :=
        (procLinks_sim site keywords M (site.listing offset).hrefs acc).1 a hpl
      refine ⟨tail, ht, fun hall => ⟨offset, ?_⟩⟩
      rw [scrapeFrom_of_halt (hcon hall)]
    | cont a =>
      rw [hpl] at hrun
      obtain ⟨tail0, ht0, hcon⟩ :=
        (procLinks_sim site keywords M (site.listing offset).hrefs acc).2 a hpl
      by_cases hd : strContains (site.listing offset).text oldestDateStr = true
      · simp [hd] at hrun
        obtain ⟨h1, h2⟩ := hrun
        subst h1
        refine ⟨tail0, ht0, fun hall => ⟨offset, ?_⟩⟩
        rcases hcon with ⟨h0, hrun2⟩ | hrun2
        · rw [scrapeFrom_stop_date hrun2 hd]
        · rw [scrapeFrom_of_halt (hrun2 hall)]
      · by_cases hb : OFFSET_INCREASE * 2 * days < offset + OFFSET_INCREASE
        · simp [hd, hb] at hrun
          obtain ⟨h1, h2⟩ := hrun
          subst h1
          refine ⟨tail0, ht0, fun hall => ⟨offset, ?_⟩⟩
          rcases hcon with ⟨h0, hrun2⟩ | hrun2
          · rw [scrapeFrom_stop_bound hrun2 (by simpa using hd) hb]
          · rw [scrapeFrom_of_halt (hrun2 hall)]
        · simp [hd, hb] at hrun
          have hk2 : OFFSET_INCREASE * 2 * days ≤
              (offset + OFFSET_INCREASE) + OFFSET_INCREASE * k := by
            simp only [OFFSET_INCREASE] at hk ⊢
            omega
          obtain ⟨tail1, ht1, hcon1⟩ :=
            ih (offset + OFFSET_INCREASE) a ms o hk2 hrun
          rcases hcon with ⟨h0, hrun2⟩ | hrun2
          · subst h0
            simp only [List.append_nil] at ht0
            subst ht0
            refine ⟨tail1, ht1, fun hall => ?_⟩
            obtain ⟨o2, hr2⟩ := hcon1 hall
            refine ⟨o2, ?_⟩
            rw [scrapeFrom_recurse hrun2 (by simpa using hd)
              (by simpa using hb)]
            exact hr2
          · refine ⟨tail0 ++ tail1, by simp [ht1, ht0], fun hall => ⟨offset, ?_⟩⟩
            have hall0 : ∀ x ∈ tail0, strContains hist2 x = true := by
              intro x hx
              exact hall x (List.mem_append_left tail1 hx)
            rw [scrapeFrom_of_halt (hrun2 hall0)]

theorem output_file_of_matches (ms keywords : List String)
    (file : Option String) (offset : Nat) (prev : String) (hms : ms ≠ []) :
    (output_new_matches ms keywords file offset prev true).1 =
      some ((pyJoin "\n" ms ++ "\n") ++ read_file_to_string file) := by
  have hne : ms.isEmpty = false := by
    cases ms with
    | nil => exact absurd rfl hms
    | cons a l => rfl
  have h0 : (output_new_matches ms keywords file offset prev true).1 =
      some (writelinesContent ((pyJoin "\n" ms ++ "\n") ::
        (match file with
          | some c => splitlinesKeepends c
          | none => []))) := by
    unfold output_new_matches
    rw [if_neg (by simp [hne])]
    rfl
  cases file with
  | none =>
    rw [h0]
    rfl
  | some c =>
    rw [h0]
    have h3 : writelinesContent ((pyJoin "\n" ms ++ "\n") ::
        splitlinesKeepends c) =
        (pyJoin "\n" ms ++ "\n") ++ writelinesContent (splitlinesKeepends c) :=
      rfl
    rw [h3, writelines_splitlines]
    rfl

theorem strContains_join_mem {x : String} {ms : List String} (suffix : String)
    (hx : x ∈ ms) :
    strContains ((pyJoin "\n" ms ++ "\n") ++ suffix) x = true := by
  obtain ⟨a, b, hab⟩ := pyJoin_mem "\n" hx
  unfold strContains
  rw [toList_append, toList_append, hab]
  have h2 := charsContain_middle a x.toList
    (b ++ ((("\n" : String)).toList ++ suffix.toList))
  simpa [List.append_assoc] using h2

/-! Claim theorems. -/

/-- C2: already-seen wall — the first time a candidate detail page's rendered
match string occurs verbatim as a substring of the loaded history snapshot
text, `scrape_supost` halts immediately and returns exactly the matches
accumulated strictly before that candidate; nothing already accumulated is
discarded, and (the later candidates `l2` being unconstrained and the fetch
count being 1 from this offset) no later candidate or listing page is
examined. -/
theorem claim_C2_already_seen_wall (site : Site) (keywords : List String)
    (days : Nat) (oldestDateStr prev : String) (offset : Nat)
    (acc acc2 l1 l2 : List String) (href t : String)
    (hpage : (site.listing offset).hrefs = l1 ++ href :: l2)
    (hbefore : procLinks site keywords prev l1 acc = .cont acc2)
    (hcand : strContains href "post/index" = true)
    (hhit : ∃ kw ∈ keywords, keywordHit (site.detail href).text kw = true)
    (ht : (site.detail href).postTitle = some t)
    (hseen : strContains prev (renderMatch t href) = true) :
    scrapeFrom site keywords days oldestDateStr prev offset acc =
      (.ok (acc2, offset), 1) := by
  have hpl : procLinks site keywords prev (site.listing offset).hrefs acc =
      .halt acc2 := by
    rw [hpage, procLinks_append, hbefore]
    show procLinks site keywords prev (href :: l2) acc2 = .halt acc2
    rw [procLinks, if_pos hcand,
      procKeywords_already_seen prev href hhit ht hseen]
  exact scrapeFrom_of_halt hpl

/-- C2 witness: a history that already contains
`"Foo: supost.com/post/index/1"` makes the run stop at once, returning the
(empty) list accumulated before the candidate. -/
theorem claim_C2_witness :
    scrapeFrom (onePostSite ⟨"monitor", some "Foo"⟩) ["monitor"] 5 "X"
      "Foo: supost.com/post/index/1\n" 0 [] = (.ok ([], 0), 1) :=
  claim_C2_already_seen_wall (onePostSite ⟨"monitor", some "Foo"⟩) ["monitor"]
    5 "X" "Foo: supost.com/post/index/1\n" 0 [] [] [] []
    "/post/index/1" "Foo" rfl rfl (by decide)
    ⟨"monitor", by simp, by decide⟩ rfl (by decide)

/-- C3: prepend correctness — writing the joined new match lines through the
`Prepender` and reading the file back yields exactly the new lines (one per
line) immediately followed by the previous content. -/
theorem claim_C3_prepend_roundtrip (prevText : String) (newLines : List String)
    (hprev : prevText ≠ "") (hnew : newLines ≠ []) :
    read_file_to_string
        (prependerRun (some prevText) [pyJoin "\n" newLines ++ "\n"]) =
      (pyJoin "\n" newLines ++ "\n") ++ prevText := by
  have h1 : read_file_to_string
      (prependerRun (some prevText) [pyJoin "\n" newLines ++ "\n"]) =
      (pyJoin "\n" newLines ++ "\n") ++
        writelinesContent (splitlinesKeepends prevText) := rfl
  rw [h1, writelines_splitlines]

/-- C3 witness: two new lines prepended onto a one-line file. -/
theorem claim_C3_witness :
    read_file_to_string
        (prependerRun (some "Old: supost.com/post/index/9\n")
          [pyJoin "\n" ["A: supost.com/post/index/1",
            "B: supost.com/post/index/2"] ++ "\n"]) =
      (pyJoin "\n" ["A: supost.com/post/index/1",
        "B: supost.com/post/index/2"] ++ "\n") ++
        "Old: supost.com/post/index/9\n" :=
  claim_C3_prepend_roundtrip "Old: supost.com/post/index/9\n"
    ["A: supost.com/post/index/1", "B: supost.com/post/index/2"]
    (by decide) (by decide)

/-- C4 counterexample: the history rewrite is not atomic.  Opening the
`Prepender` (mode `"w"`) immediately truncates the file: right after
`__init__` the on-disk content is `""`, which is neither the old complete
content nor the new complete content, so a run aborted between open and exit
leaves a partially written (empty) history file. -/
theorem claim_C4_counterexample :
    (prependerOpen (some "Old: supost.com/post/index/9\n")).file = some "" ∧
      ("" : String) ≠ "Old: supost.com/post/index/9\n" ∧
      prependerRun (some "Old: supost.com/post/index/9\n")
          ["New: supost.com/post/index/1\n"] =
        some ("New: supost.com/post/index/1\n" ++
          "Old: supost.com/post/index/9\n") ∧
      ("" : String) ≠ "New: supost.com/post/index/1\n" ++
        "Old: supost.com/post/index/9\n" := by
  refine ⟨rfl, by decide, by decide, by decide⟩

/-- C4 amended: the rewrite is not atomic with respect to failures.
`Prepender.__init__` truncates the file to empty on open, so an abort between
open and completion leaves an empty file (old content lost); only a normally
completed block replaces the file with the full new content followed by the
old content. -/
theorem claim_C4_amended (old w : String) :
    (prependerOpen (some old)).file = some "" ∧
      prependerRun (some old) [w] = some (w ++ old) := by
  refine ⟨rfl, ?_⟩
  have h1 : prependerRun (some old) [w] =
      some (w ++ writelinesContent (splitlinesKeepends old)) := rfl
  rw [h1, writelines_splitlines]

/-- C5 counterexample: keyword matching is not unaffected by the keyword's
letter case.  The source lower-cases only the page text, so the uppercase
keyword `"MONITOR"` fails against a page whose text is `"monitor"`, although
the case-folded page text does contain the case-folded keyword; a full run
with that keyword finds no match. -/
theorem claim_C5_counterexample :
    keywordHit "monitor" "MONITOR" = false ∧
      strContains (strLower "monitor") (strLower "MONITOR") = true ∧
      scrape_supost (onePostSite ⟨"monitor", some "Foo"⟩) ["MONITOR"] 5
        "Sat, Oct 10" "" = (.ok ([], 0), 1) := by
  refine ⟨by decide, by decide, ?_⟩
  rw [scrape_supost]
  exact scrapeFrom_stop_date
    (show procLinks (onePostSite ⟨"monitor", some "Foo"⟩) ["MONITOR"] ""
        ((onePostSite ⟨"monitor", some "Foo"⟩).listing 0).hrefs [] = .cont []
      from by decide)
    (show strContains ((onePostSite ⟨"monitor", some "Foo"⟩).listing 0).text
        "Sat, Oct 10" = true from by decide)

/-- C5 amended: a detail page (with its title present and not already seen)
contributes an entry if and only if its case-folded visible text contains at
least one keyword verbatim as a substring; the result is unaffected by the
letter case of the page text (pages with equal case-folded text behave
identically) but it does depend on the keyword's letter case — keywords match
only as written against the lower-cased text. -/
theorem claim_C5_amended :
    (∀ (prev href : String) (page : DetailPage) (t : String)
        (kws acc : List String), page.postTitle = some t →
      strContains prev (renderMatch t href) = false →
      (procKeywords prev page href kws acc ≠ .cont acc ↔
        ∃ kw ∈ kws, strContains (strLower page.text) kw = true)) ∧
    (∀ s1 s2 kw : String, strLower s1 = strLower s2 →
      keywordHit s1 kw = keywordHit s2 kw) := by
  constructor
  · intro prev href page t kws acc ht hnew
    constructor
    · intro hne
      by_contra hno
      push_neg at hno
      exact hne (procKeywords_no_hit prev href
        (fun kw hk => by simpa using hno kw hk) acc)
    · intro hhit heq
      have hkpos : 0 < kws.countP (keywordHit page.text) := by
        rcases hhit with ⟨kw, hk, hkt⟩
        exact List.countP_pos_iff.mpr ⟨kw, hk, hkt⟩
      rw [procKeywords_fresh prev href kws ht hnew acc] at heq
      injection heq with h
      have hlen := congrArg List.length h
      simp only [List.length_append, List.length_replicate] at hlen
      omega
  · intro s1 s2 kw h
    unfold keywordHit
    rw [h]

/-- C5 amended witness: the page `"MONITOR"` matches keyword `"monitor"`
(page case is irrelevant), instantiating both conjuncts. -/
theorem claim_C5_amended_witness :
    (procKeywords "" ⟨"MONITOR", some "Foo"⟩ "/post/index/1" ["monitor"] [] ≠
        .cont []) ∧
      keywordHit "MONITOR" "monitor" = keywordHit "monitor" "monitor" := by
  constructor
  · exact (claim_C5_amended.1 "" "/post/index/1" ⟨"MONITOR", some "Foo"⟩ "Foo"
      ["monitor"] [] rfl (by decide)).mpr ⟨"monitor", by simp, by decide⟩
  · exact claim_C5_amended.2 "MONITOR" "monitor" "monitor" (by decide)

/-- C6 counterexample: a single fetched detail page can contribute two
entries.  With keywords `["mon", "tor"]`, both of which occur in the one
detail page's text `"monitor"`, the run returns the same rendered string
twice although the link `"/post/index/1"` is listed only once. -/
theorem claim_C6_counterexample :
    scrape_supost (onePostSite ⟨"monitor", some "Foo"⟩) ["mon", "tor"] 5
        "Sat, Oct 10" "" =
      (.ok (["Foo: supost.com/post/index/1", "Foo: supost.com/post/index/1"],
        0), 1) := by
  rw [scrape_supost]
  exact scrapeFrom_stop_date
    (show procLinks (onePostSite ⟨"monitor", some "Foo"⟩) ["mon", "tor"] ""
        ((onePostSite ⟨"monitor", some "Foo"⟩).listing 0).hrefs [] =
        .cont ["Foo: supost.com/post/index/1", "Foo: supost.com/post/index/1"]
      from by decide)
    (show strContains ((onePostSite ⟨"monitor", some "Foo"⟩).listing 0).text
        "Sat, Oct 10" = true from by decide)

/-- C6 amended: within one run a fetched detail page (title present, not
already seen) contributes exactly one entry per matching keyword, so its
rendered string can appear several times in the accumulated list even when the
link is listed only once; duplicates also arise when the same link is listed
twice. -/
theorem claim_C6_amended (prev href : String) (page : DetailPage) (t : String)
    (kws acc : List String) (ht : page.postTitle = some t)
    (hnew : strContains prev (renderMatch t href) = false) :
    procKeywords prev page href kws acc =
      .cont (acc ++ List.replicate (kws.countP (keywordHit page.text))
        (renderMatch t href)) :=
  procKeywords_fresh prev href kws ht hnew acc

/-- C6 amended witness: both keywords `"mon"` and `"tor"` hit the page
`"monitor"`, so the candidate contributes two copies of its rendered string. -/
theorem claim_C6_amended_witness :
    procKeywords "" ⟨"monitor", some "Foo"⟩ "/post/index/1" ["mon", "tor"] [] =
      .cont ([] ++ List.replicate
        ((["mon", "tor"]).countP (keywordHit "monitor"))
        (renderMatch "Foo" "/post/index/1")) :=
  claim_C6_amended "" "/post/index/1" ⟨"monitor", some "Foo"⟩ "Foo"
    ["mon", "tor"] [] rfl (by decide)

/-- C7 counterexample: a textually matching detail page without the
`h2#posttitle` heading does not get skipped — the `AttributeError` from
`find(...).text` propagates and aborts the whole run (modelled as
`Except.error`), even though the remote dataset would let the run continue. -/
theorem claim_C7_counterexample :
    scrape_supost (onePostSite ⟨"monitor", none⟩) ["monitor"] 5
        "Sat, Oct 10" "" = (.error (), 1) := by
  rw [scrape_supost]
  exact scrapeFrom_of_err
    (show procLinks (onePostSite ⟨"monitor", none⟩) ["monitor"] ""
        ((onePostSite ⟨"monitor", none⟩).listing 0).hrefs [] = .err
      from by decide)

/-- C7 amended: if a candidate detail page's text matches a keyword but the
page lacks the expected title heading, the run aborts with the propagating
exception at that candidate — it is not logged-and-skipped, and no further
candidate or listing page is processed. -/
theorem claim_C7_amended (site : Site) (keywords : List String)
    (days : Nat) (oldestDateStr prev : String) (offset : Nat)
    (acc acc2 l1 l2 : List String) (href : String)
    (hpage : (site.listing offset).hrefs = l1 ++ href :: l2)
    (hbefore : procLinks site keywords prev l1 acc = .cont acc2)
    (hcand : strContains href "post/index" = true)
    (hhit : ∃ kw ∈ keywords, keywordHit (site.detail href).text kw = true)
    (ht : (site.detail href).postTitle = none) :
    scrapeFrom site keywords days oldestDateStr prev offset acc =
      (.error (), 1) := by
  have hpl : procLinks site keywords prev (site.listing offset).hrefs acc =
      .err := by
    rw [hpage, procLinks_append, hbefore]
    show procLinks site keywords prev (href :: l2) acc2 = .err
    rw [procLinks, if_pos hcand,
      procKeywords_missing_title prev href hhit ht]
  exact scrapeFrom_of_err hpl

/-- C7 amended witness. -/
theorem claim_C7_amended_witness :
    scrapeFrom (onePostSite ⟨"monitor", none⟩) ["monitor"] 5 "X" "" 0 [] =
      (.error (), 1) :=
  claim_C7_amended (onePostSite ⟨"monitor", none⟩) ["monitor"] 5 "X" "" 0
    [] [] [] [] "/post/index/1" rfl rfl (by decide)
    ⟨"monitor", by simp, by decide⟩ rfl

/-- C8: bounded termination — the crawl loop (a total function here, its
recursion well-founded on the offset ceiling) fetches at most
`2 * days_to_check + 1` listing pages; a normally returning run reports a
final offset of at most `OFFSET_INCREASE * 2 * days_to_check`; and whenever
the next offset would exceed that bound (with no earlier stop on the same
page), the run returns right there with one more page fetched. -/
theorem claim_C8_bounded_termination (site : Site) (keywords : List String)
    (days : Nat) (oldestDateStr prev : String) (hdays : 1 ≤ days) :
    (scrape_supost site keywords days oldestDateStr prev).2 ≤ 2 * days + 1 ∧
    (∀ ms o, (scrape_supost site keywords days oldestDateStr prev).1 =
        .ok (ms, o) → o ≤ OFFSET_INCREASE * 2 * days) ∧
    (∀ offset acc a,
      procLinks site keywords prev (site.listing offset).hrefs acc = .cont a →
      strContains (site.listing offset).text oldestDateStr = false →
      OFFSET_INCREASE * 2 * days < offset + OFFSET_INCREASE →
      scrapeFrom site keywords days oldestDateStr prev offset acc =
        (.ok (a, offset), 1)) := by
  refine ⟨?_, ?_, ?_⟩
  · have h := scrapeFrom_pages_le site keywords days oldestDateStr prev
      (2 * days) 0 [] (by simp only [OFFSET_INCREASE]; omega)
    exact h
  · intro ms o h
    exact scrapeFrom_offset_le site keywords days oldestDateStr prev
      (2 * days) 0 [] ms o (by simp only [OFFSET_INCREASE]; omega)
      (Nat.zero_le _) h
  · intro offset acc a h1 h2 h3
    exact scrapeFrom_stop_bound h1 h2 h3

/-- C8 witness: a one-day run over the concrete site fetches at most three
listing pages. -/
theorem claim_C8_witness :
    (scrape_supost (onePostSite ⟨"nothing", none⟩) ["monitor"] 1
      "Sat, Oct 10" "").2 ≤ 2 * 1 + 1 :=
  (claim_C8_bounded_termination (onePostSite ⟨"nothing", none⟩) ["monitor"] 1
    "Sat, Oct 10" "" (by decide)).1

/-- C9: delivery guard and ordering — `send_email` is reached only when the
new-matches list is non-empty and the history write completed (`writeOk`);
when it is reached, the completed trace is exactly the history write, then the
e-mail, then the console message, so the history rewrite strictly precedes
delivery, and no delivery happens on an empty list or a failed write. -/
theorem claim_C9_delivery_guard (ms keywords : List String)
    (file : Option String) (offset : Nat) (prev : String) (writeOk : Bool)
    (msg : String)
    (hmail : Action.emailSend msg ∈
      (output_new_matches ms keywords file offset prev writeOk).2.1) :
    ms ≠ [] ∧ writeOk = true ∧
      ∃ c p, (output_new_matches ms keywords file offset prev writeOk).2.1 =
        [Action.historyWrite c, Action.emailSend msg,
          Action.consolePrint p] := by
  cases ms with
  | nil => simp [output_new_matches] at hmail
  | cons m rest =>
    cases writeOk with
    | false => simp [output_new_matches] at hmail
    | true =>
      have htr : (output_new_matches (m :: rest) keywords file offset prev
          true).2.1 =
          [Action.historyWrite (read_file_to_string (prependerExit
              (prependerWrite (prependerOpen file)
                (pyJoin "\n" (m :: rest) ++ "\n")))),
           Action.emailSend (create_mail_message (m :: rest) keywords offset
             prev),
           Action.consolePrint "New matches found. Email sent."] := rfl
      rw [htr] at hmail
      simp at hmail
      subst hmail
      exact ⟨by simp, rfl,
        read_file_to_string (prependerExit (prependerWrite (prependerOpen file)
          (pyJoin "\n" (m :: rest) ++ "\n"))),
        "New matches found. Email sent.", htr⟩

/-- C9 witness: with one new match and a successful write, the trace is
write-then-mail-then-print. -/
theorem claim_C9_witness :
    (["A: x"] : List String) ≠ [] ∧ (true = true) ∧
      ∃ c p, (output_new_matches ["A: x"] ["k"] none 0 "" true).2.1 =
        [Action.historyWrite c,
         Action.emailSend (create_mail_message ["A: x"] ["k"] 0 ""),
         Action.consolePrint p] :=
  claim_C9_delivery_guard ["A: x"] ["k"] none 0 "" true
    (create_mail_message ["A: x"] ["k"] 0 "") (by simp [output_new_matches])

/-- C10: first-run edge case — with an empty loaded history snapshot the
already-seen stop can never fire: the candidate-link loop never halts early
(every rendered match string is non-empty, and no non-empty string occurs in
empty text), every keyword match is appended (one entry per matching
keyword), and a normally returning walk can only have stopped through the
date heuristic or the offset ceiling. -/
theorem claim_C10_first_run (site : Site) (keywords : List String)
    (days : Nat) (oldestDateStr : String) :
    (∀ ms o,
      (scrape_supost site keywords days oldestDateStr "").1 = .ok (ms, o) →
      strContains (site.listing o).text oldestDateStr = true ∨
        OFFSET_INCREASE * 2 * days < o + OFFSET_INCREASE) ∧
    (∀ (page : DetailPage) (href t : String) (kws acc : List String),
      page.postTitle = some t →
      procKeywords "" page href kws acc =
        .cont (acc ++ List.replicate (kws.countP (keywordHit page.text))
          (renderMatch t href))) ∧
    (∀ links acc x, procLinks site keywords "" links acc ≠ .halt x) := by
  refine ⟨?_, ?_, ?_⟩
  · intro ms o h
    exact scrapeFrom_empty_prev_stop site keywords days oldestDateStr
      (2 * days) 0 [] ms o (by simp only [OFFSET_INCREASE]; omega) h
  · intro page href t kws acc ht
    refine procKeywords_fresh "" href kws ht ?_ acc
    cases hs : strContains "" (renderMatch t href) with
    | false => rfl
    | true =>
      exact absurd (strContains_empty hs) (renderMatch_toList_ne_nil t href)
  · intro links acc x
    exact procLinks_empty_prev_no_halt site keywords links acc x

/-- C10 witness: a first run over the concrete site returns through the date
heuristic. -/
theorem claim_C10_witness :
    strContains ((onePostSite ⟨"nothing", none⟩).listing 0).text
        "Sat, Oct 10" = true ∨
      OFFSET_INCREASE * 2 * 5 < 0 + OFFSET_INCREASE :=
  (claim_C10_first_run (onePostSite ⟨"nothing", none⟩) ["monitor"] 5
    "Sat, Oct 10").1 [] 0 (by
      rw [scrape_supost, scrapeFrom_stop_date
        (show procLinks (onePostSite ⟨"nothing", none⟩) ["monitor"] ""
            ((onePostSite ⟨"nothing", none⟩).listing 0).hrefs [] = .cont []
          from by decide)
        (show strContains ((onePostSite ⟨"nothing", none⟩).listing 0).text
            "Sat, Oct 10" = true from by decide)])

/-- C1: idempotence of a full run — for a fixed remote dataset and a fixed
current date, if a run over the history file returns normally, then after
`output_new_matches` rewrites the history exactly as the program does
(prepending the joined new matches when there are any, leaving the file
untouched otherwise), an immediately repeated run returns an empty
new-matches list. -/
theorem claim_C1_run_idempotent (site : Site) (keywords : List String)
    (days : Nat) (oldestDateStr : String) (file : Option String)
    (ms : List String) (o : Nat)
    (hrun1 : (scrape_supost site keywords days oldestDateStr
        (read_file_to_string file)).1 = .ok (ms, o)) :
    ∃ o2, (scrape_supost site keywords days oldestDateStr
      (read_file_to_string
        (output_new_matches ms keywords file o
          (read_file_to_string file) true).1)).1 = .ok ([], o2) := by
  by_cases hms : ms = []
  · subst hms
    refine ⟨o, ?_⟩
    have hfile : (output_new_matches [] keywords file o
        (read_file_to_string file) true).1 = file := rfl
    rw [hfile]
    exact hrun1
  · rw [output_file_of_matches ms keywords file o
      (read_file_to_string file) hms]
    have hread : read_file_to_string (some ((pyJoin "\n" ms ++ "\n") ++
        read_file_to_string file)) =
        (pyJoin "\n" ms ++ "\n") ++ read_file_to_string file := rfl
    rw [hread]
    have M : ∀ n, strContains (read_file_to_string file) n = true →
        strContains ((pyJoin "\n" ms ++ "\n") ++
          read_file_to_string file) n = true :=
      fun n hn => strContains_prepend _ hn
    unfold scrape_supost at hrun1 ⊢
    obtain ⟨tail, htail, hcon⟩ := scrapeFrom_sim site keywords days
      oldestDateStr M (2 * days) 0 [] ms o
      (by simp only [OFFSET_INCREASE]; omega) hrun1
    simp only [List.nil_append] at htail
    subst htail
    exact hcon (fun x hx => strContains_join_mem _ hx)

/-- C1 witness: a run that finds nothing leaves the history untouched and a
second run again finds nothing. -/
theorem claim_C1_witness :
    ∃ o2, (scrape_supost (onePostSite ⟨"nothing", none⟩) ["monitor"] 5
      "Sat, Oct 10"
      (read_file_to_string
        (output_new_matches [] ["monitor"] none 0
          (read_file_to_string none) true).1)).1 = .ok ([], o2) :=
  claim_C1_run_idempotent (onePostSite ⟨"nothing", none⟩) ["monitor"] 5
    "Sat, Oct 10" none [] 0 (by
      show (scrape_supost (onePostSite ⟨"nothing", none⟩) ["monitor"] 5
        "Sat, Oct 10" "").1 = .ok ([], 0)
      rw [scrape_supost, scrapeFrom_stop_date
        (show procLinks (onePostSite ⟨"nothing", none⟩) ["monitor"] ""
            ((onePostSite ⟨"nothing", none⟩).listing 0).hrefs [] = .cont []
          from by decide)
        (show strContains ((onePostSite ⟨"nothing", none⟩).listing 0).text
            "Sat, Oct 10" = true from by decide)])

end Supost
